import Mathlib

/-!
Verification development for the option-merge subsystem of a Vue-style
component framework (src/unnamed/part_000): mergeOptions, the per-field
merge strategy table, the deep data merger, the three normalization
passes and the named-asset resolver.

JavaScript values are embedded as finite trees: plain objects are
insertion-ordered own-entry lists together with a prototype value
(jsNull when the object has a null prototype, mirroring
Object.create(null) and the model of an object literal whose
Object.prototype carries no enumerable properties).  Functions are
embedded as a small closed inductive of the closures the source
allocates (mergedDataFn / mergedInstanceDataFn), component constructors
carrying their options, and user-supplied zero-argument factories that
return a fixed value when called.  Fallible evaluation (JavaScript
TypeError on member access through undefined, or calling .concat on a
non-array) is embedded with Except.  The reactive-registration
collaborator (set, from ../observer/index, not under src/) is modelled
from the spec: installing the key/value pair and recording the key in an
event trace.
-/

mutual

inductive JSVal where
  | undefV
  | jsNull
  | num (n : Int)
  | str (s : String)
  | boolV (b : Bool)
  | fn (f : FnVal)
  | obj (es : Entries) (proto : JSVal)
  | arr (elems : VList)

inductive FnVal where
  | userFn (id : Nat) (ret : JSVal)
  | ctorFn (opts : JSVal)
  | mergedDataFn (parentVal childVal : JSVal)
  | mergedInstanceDataFn (parentVal childVal : JSVal)

inductive Entries where
  | enil
  | econs (k : String) (v : JSVal) (rest : Entries)

inductive VList where
  | vnil
  | vcons (v : JSVal) (rest : VList)

end

/-- JavaScript truthiness of an embedded value. -/
def truthy : JSVal → Bool
  | .undefV => false
  | .jsNull => false
  | .num n => n != 0
  | .str s => s ≠ ""
  | .boolV b => b
  | .fn _ => true
  | .obj _ _ => true
  | .arr _ => true

/-- shared/util isPlainObject: Object.prototype.toString yields
[object Object] exactly for (possibly null-prototyped) plain objects. -/
def isPlainObject : JSVal → Bool
  | .obj _ _ => true
  | _ => false

/-- Array.isArray. -/
def isArray : JSVal → Bool
  | .arr _ => true
  | _ => false

/-- typeof v === 'function'. -/
def isFunction : JSVal → Bool
  | .fn _ => true
  | _ => false

/-- Own-entry key list of an entry list, in insertion order. -/
def ekeys : Entries → List String
  | .enil => []
  | .econs k _ r => k :: ekeys r

/-- First own entry for a key (own properties are unique in JavaScript;
the constructions below maintain that invariant). -/
def elookup : Entries → String → Option JSVal
  | .enil, _ => none
  | .econs k0 v r, k => if k = k0 then some v else elookup r k

/-- JavaScript property assignment on an entry list: an existing key
keeps its position and gets the new value, a new key is appended. -/
def esetUpd : Entries → String → JSVal → Entries
  | .enil, k, v => .econs k v .enil
  | .econs k0 v0 r, k, v =>
      if k = k0 then .econs k0 v r else .econs k0 v0 (esetUpd r k v)

/-- shared/util hasOwn.  Modelled from the spec: an own-presence check
against the value's own entries (total here; the JavaScript original
faults on undefined receivers, which the fallible member access
getMemberE below accounts for where it decides behavior). -/
def hasOwnV : JSVal → String → Bool
  | .obj es _, k => (elookup es k).isSome
  | _, _ => false

/-- Property read, walking the prototype chain; absent keys and
non-object receivers read as undefined. -/
def getV : JSVal → String → JSVal
  | .obj es p, k =>
      match elookup es k with
      | some v => v
      | none => getV p k
  | _, _ => .undefV

/-- Member access as an expression: a TypeError on undefined/null
receivers, otherwise getV. -/
def getMemberE (v : JSVal) (k : String) : Except String JSVal :=
  match v with
  | .undefV => .error "TypeError: cannot read property of undefined"
  | .jsNull => .error "TypeError: cannot read property of null"
  | _ => .ok (getV v k)

/-- for-in key enumeration: own keys first, then prototype-chain keys
not shadowed by an own key. -/
def forInKeys : JSVal → List String
  | .obj es p =>
      let own := ekeys es
      own ++ (forInKeys p).filter (fun k => !(own.contains k))
  | _ => []

def vlistToList : VList → List JSVal
  | .vnil => []
  | .vcons v r => v :: vlistToList r

def vappend : VList → VList → VList
  | .vnil, ys => ys
  | .vcons x r, ys => .vcons x (vappend r ys)

/-- shared/util camelize.  Modelled from the spec: kebab-case names are
camel-cased by dropping each hyphen and upper-casing the following
character. -/
def camelizeAux : List Char → List Char
  | [] => []
  | '-' :: c :: rest => c.toUpper :: camelizeAux rest
  | c :: rest => c :: camelizeAux rest

/-- shared/util camelize on strings.  Modelled from the spec. -/
def camelize (s : String) : String := String.mk (camelizeAux s.data)

/-- shared/util capitalize.  Modelled from the spec: upper-case the
first character. -/
def capitalize (s : String) : String :=
  match s.data with
  | [] => ""
  | c :: r => String.mk (c.toUpper :: r)

/-- shared/util extend.  Modelled from the spec: shallow copy of the
source's own entries onto the target, same-key entries overriding. -/
def extendEntries (tgt : Entries) : Entries → Entries
  | .enil => tgt
  | .econs k v r => extendEntries (esetUpd tgt k v) r

/-- extend with an arbitrary source value: non-objects contribute no
entries. -/
def extendObj (tgt : Entries) : JSVal → Entries
  | .obj es _ => extendEntries tgt es
  | _ => tgt

/-- shared/constants LIFECYCLE_HOOKS.  Modelled from the spec: the fixed
list of lifecycle hook field names. -/
def LIFECYCLE_HOOKS : List String :=
  ["beforeCreate", "created", "beforeMount", "mounted", "beforeUpdate",
   "updated", "beforeDestroy", "destroyed", "activated", "deactivated",
   "errorCaptured"]

/-- shared/constants ASSET_TYPES with the trailing s the source appends
when registering the asset strategies.  Modelled from the spec: the
fixed list of named-asset categories. -/
def ASSET_STRAT_KEYS : List String := ["components", "directives", "filters"]

/-!  Deep Data Merger (mergeData, src/unnamed/part_000 lines 51-71).
The source mutates the target in place; the embedding threads the
updated value and returns, alongside it, the trace of keys installed
through the reactive-registration collaborator set (one event per
newly introduced key, at the point of introduction).  A falsy or
non-object source contributes no keys (Object.keys of a non-object is
empty); a non-object target is outside the paths the claims cover and
is returned unchanged. -/

mutual

def mergeData : JSVal → JSVal → JSVal × List String
  | tgt, .obj fes _ =>
      (match tgt with
       | .obj tes tproto =>
           let r := mergeDataGo tes fes
           (.obj r.1 tproto, r.2)
       | t => (t, []))
  | tgt, _ => (tgt, [])

def mergeDataGo : Entries → Entries → Entries × List String
  | tes, .enil => (tes, [])
  | tes, .econs k v rest =>
      match elookup tes k with
      | none =>
          let r := mergeDataGo (esetUpd tes k v) rest
          (r.1, k :: r.2)
      | some toVal =>
          if isPlainObject toVal && isPlainObject v then
            let m := mergeData toVal v
            let r := mergeDataGo (esetUpd tes k m.1) rest
            (r.1, m.2 ++ r.2)
          else
            mergeDataGo tes rest

end

/-- mergeDataOrFn (lines 79-124).  Without an instance: an absent child
returns the parent unchanged, an absent parent returns the child
unchanged, and only with both present is the deferred mergedDataFn
closure allocated.  With an instance: any present side allocates the
deferred mergedInstanceDataFn closure; both absent falls through to
undefined. -/
def mergeDataOrFn (parentVal childVal : JSVal) (vm : Bool) : JSVal :=
  if !vm then
    if !truthy childVal then parentVal
    else if !truthy parentVal then childVal
    else .fn (.mergedDataFn parentVal childVal)
  else
    if truthy parentVal || truthy childVal then
      .fn (.mergedInstanceDataFn parentVal childVal)
    else .undefV

/-- strats.data (lines 126-147): without an instance a truthy
non-function child is rejected with a diagnostic and the parent is
returned; otherwise mergeDataOrFn. -/
def stratData (parentVal childVal : JSVal) (vm : Bool) : JSVal :=
  if !vm then
    if truthy childVal && !isFunction childVal then parentVal
    else mergeDataOrFn parentVal childVal false
  else mergeDataOrFn parentVal childVal true

/-!  Invocation of the deferred data closures (the bodies of
mergedDataFn and mergedInstanceDataFn, lines 100-122), with the event
trace of the reactive registrations they perform when called. -/

mutual

def callFn : FnVal → JSVal × List String
  | .userFn _ ret => (ret, [])
  | .ctorFn _ => (.undefV, [])
  | .mergedDataFn parentVal childVal =>
      let c := callIfFn childVal
      let p := callIfFn parentVal
      let m := mergeData c.1 p.1
      (m.1, c.2 ++ p.2 ++ m.2)
  | .mergedInstanceDataFn parentVal childVal =>
      let c := callIfFn childVal
      let p := callIfFn parentVal
      if truthy c.1 then
        let m := mergeData c.1 p.1
        (m.1, c.2 ++ p.2 ++ m.2)
      else (p.1, c.2 ++ p.2)

/-- typeof v === 'function' ? v.call(this) : v -/
def callIfFn : JSVal → JSVal × List String
  | .fn f => callFn f
  | v => (v, [])

end

/-- mergeHook (lines 155-176).  The child, when truthy, is wrapped into
a one-element sequence unless already an array; the parent is used
as-is: with a truthy child the source calls parentVal.concat, which is
a TypeError unless the parent value is an array. -/
def hookChildElems : JSVal → VList
  | .arr ys => ys
  | c => .vcons c .vnil

def mergeHookE (parentVal childVal : JSVal) : Except String JSVal :=
  if truthy childVal then
    if truthy parentVal then
      match parentVal with
      | .arr xs => .ok (.arr (vappend xs (hookChildElems childVal)))
      | _ => .error "TypeError: parentVal.concat is not a function"
    else if isArray childVal then .ok childVal
    else .ok (.arr (.vcons childVal .vnil))
  else .ok parentVal

/-- Object.create(parentVal || null): a falsy parent gives a fresh
null-prototype object, an object (or function) parent becomes the
prototype, and a truthy primitive is a TypeError. -/
def objCreateE (p : JSVal) : Except String JSVal :=
  if truthy p then
    match p with
    | .num _ => .error "TypeError: Object prototype may only be an Object or null"
    | .str _ => .error "TypeError: Object prototype may only be an Object or null"
    | .boolV _ => .error "TypeError: Object prototype may only be an Object or null"
    | _ => .ok (.obj .enil p)
  else .ok (.obj .enil .jsNull)

/-- mergeAssets (lines 188-204): a fresh object whose prototype is the
parent value (or null), with the child's own entries copied on top when
the child is truthy (a non-object truthy child only draws a diagnostic
and contributes nothing). -/
def mergeAssetsE (parentVal childVal : JSVal) : Except String JSVal :=
  match objCreateE parentVal with
  | .error e => .error e
  | .ok res =>
      if truthy childVal then
        match res with
        | .obj es p => .ok (.obj (extendObj es childVal) p)
        | r => .ok r
      else .ok res

/-- strats.watch inner loop (lines 240-251): each child entry is
appended onto the (array-normalized) accumulated entry. -/
def watchGo : Entries → Entries → Entries
  | ret, .enil => ret
  | ret, .econs k child r =>
      let newv : JSVal :=
        match elookup ret k with
        | some p =>
            if truthy p then
              match p with
              | .arr xs => .arr (vappend xs (hookChildElems child))
              | q => .arr (.vcons q (hookChildElems child))
            else if isArray child then child else .arr (.vcons child .vnil)
        | none => if isArray child then child else .arr (.vcons child .vnil)
      watchGo (esetUpd ret k newv) r

/-- strats.watch (lines 218-253).  The Firefox nativeWatch sentinel is
modelled from the spec as undefined (non-Firefox platform), making the
two sentinel checks no-ops.  An absent child returns
Object.create(parentVal || null); an absent parent returns the child;
otherwise parent entries are copied and child entries appended per key. -/
def stratWatchE (parentVal childVal : JSVal) : Except String JSVal :=
  if !truthy childVal then objCreateE parentVal
  else if !truthy parentVal then .ok childVal
  else
    let ret0 := extendObj .enil parentVal
    match childVal with
    | .obj ces _ => .ok (.obj (watchGo ret0 ces) .jsNull)
    | _ => .ok (.obj ret0 .jsNull)

/-- strats.props / strats.methods / strats.inject / strats.computed
(lines 259-280): absent parent returns the child as-is; otherwise a
fresh null-prototype object seeded with the parent's entries and
overridden by the child's. -/
def stratObjectHash (parentVal childVal : JSVal) : JSVal :=
  if !truthy parentVal then childVal
  else
    let ret := extendObj .enil parentVal
    let ret := if truthy childVal then extendObj ret childVal else ret
    .obj ret .jsNull

/-- defaultStrat (lines 289-296). -/
def defaultStrat (parentVal childVal : JSVal) : JSVal :=
  match childVal with
  | .undefV => parentVal
  | c => c

/-- The strategy table dispatch (config.optionMergeStrategies as
populated by this module, non-production build: el and propsData carry
the instance-only diagnostic and then defaultStrat).  Each strategy
result is paired with the trace of reactive-registration events it
performs while merging; no strategy in the source performs any. -/
def stratApply (key : String) (parentVal childVal : JSVal) (vm : Bool) :
    Except String (JSVal × List String) :=
  if key = "el" || key = "propsData" then .ok (defaultStrat parentVal childVal, [])
  else if key = "data" then .ok (stratData parentVal childVal vm, [])
  else if LIFECYCLE_HOOKS.contains key then
    match mergeHookE parentVal childVal with
    | .error e => .error e
    | .ok v => .ok (v, [])
  else if ASSET_STRAT_KEYS.contains key then
    match mergeAssetsE parentVal childVal with
    | .error e => .error e
    | .ok v => .ok (v, [])
  else if key = "watch" then
    match stratWatchE parentVal childVal with
    | .error e => .error e
    | .ok v => .ok (v, [])
  else if key = "props" || key = "methods" || key = "inject" || key = "computed" then
    .ok (stratObjectHash parentVal childVal, [])
  else if key = "provide" then .ok (mergeDataOrFn parentVal childVal vm, [])
  else .ok (defaultStrat parentVal childVal, [])

/-!  Normalizer (lines 302-426).  checkComponents and assertObjectType
emit diagnostics only and do not affect values; they are not modelled. -/

/-- normalizeProps array branch (lines 327-339): the source iterates
with a decrementing index, so the elements are processed last-first;
string entries become camel-cased names bound to a type-unconstrained
descriptor, other entries only draw a diagnostic. -/
def normalizePropsArr : List JSVal → Entries → Entries
  | [], res => res
  | v :: rest, res =>
      match v with
      | .str s =>
          normalizePropsArr rest
            (esetUpd res (camelize s) (.obj (.econs "type" .jsNull .enil) .jsNull))
      | _ => normalizePropsArr rest res

/-- normalizeProps object branch (lines 341-352): each key is
camel-cased; a plain-object value passes through as the descriptor, any
other value is wrapped as its type. -/
def normalizePropsObjGo (props : JSVal) : List String → Entries → Entries
  | [], res => res
  | k :: ks, res =>
      let val := getV props k
      let d := if isPlainObject val then val
               else .obj (.econs "type" val .enil) .jsNull
      normalizePropsObjGo props ks (esetUpd res (camelize k) d)

/-- normalizeProps (lines 321-362): a falsy props field is left alone;
otherwise the props field is replaced by the rebuilt object (empty when
the input shape is invalid).  Only object config nodes are normalized;
the JavaScript original faults on primitive nodes. -/
def normalizeProps (options : JSVal) : JSVal :=
  match options with
  | .obj oes oproto =>
      let props := getV (.obj oes oproto) "props"
      if !truthy props then .obj oes oproto
      else
        let res : Entries :=
          match props with
          | .arr elems => normalizePropsArr (vlistToList elems).reverse .enil
          | .obj pes pproto => normalizePropsObjGo (.obj pes pproto) (forInKeys (.obj pes pproto)) .enil
          | _ => .enil
        .obj (esetUpd oes "props" (.obj res .jsNull)) oproto
  | o => o

/-- normalizeInject array branch (lines 372-378): each string name maps
to a descriptor pointing back at itself.  (JavaScript coerces non-string
elements to string keys; that corner is not modelled.) -/
def normalizeInjectArr : List JSVal → Entries → Entries
  | [], n => n
  | v :: rest, n =>
      match v with
      | .str s =>
          normalizeInjectArr rest
            (esetUpd n s (.obj (.econs "from" (.str s) .enil) .jsNull))
      | _ => normalizeInjectArr rest n

/-- normalizeInject object branch (lines 379-385): a plain-object value
is seeded with from = local key and then overridden by its own entries;
any other value becomes the from target. -/
def normalizeInjectObjGo (inj : JSVal) : List String → Entries → Entries
  | [], n => n
  | k :: ks, n =>
      let val := getV inj k
      let d := if isPlainObject val
               then .obj (extendObj (.econs "from" (.str k) .enil) val) .jsNull
               else .obj (.econs "from" val .enil) .jsNull
      normalizeInjectObjGo inj ks (esetUpd n k d)

/-- normalizeInject (lines 368-395): the inject field is unconditionally
replaced with a freshly built mapping — empty when the input declares no
inject or an invalid shape. -/
def normalizeInject (options : JSVal) : JSVal :=
  match options with
  | .obj oes oproto =>
      let inject := getV (.obj oes oproto) "inject"
      let n : Entries :=
        match inject with
        | .arr elems => normalizeInjectArr (vlistToList elems) .enil
        | .obj ies iproto => normalizeInjectObjGo (.obj ies iproto) (forInKeys (.obj ies iproto)) .enil
        | _ => .enil
      .obj (esetUpd oes "inject" (.obj n .jsNull)) oproto
  | o => o

/-- normalizeDirectives entry rewrite (lines 405-411): a bare function
becomes a two-hook mapping binding both bind and update to it. -/
def normDirEntries : Entries → Entries
  | .enil => .enil
  | .econs k v r =>
      .econs k
        (if isFunction v
         then .obj (.econs "bind" v (.econs "update" v .enil)) .jsNull
         else v)
        (normDirEntries r)

/-- normalizeDirectives (lines 402-416). -/
def normalizeDirectives (options : JSVal) : JSVal :=
  match options with
  | .obj oes oproto =>
      let dirs := getV (.obj oes oproto) "directives"
      if truthy dirs then
        match dirs with
        | .obj des dproto =>
            .obj (esetUpd oes "directives" (.obj (normDirEntries des) dproto)) oproto
        | _ => .obj oes oproto
      else .obj oes oproto
  | o => o

/-!  Merge Engine (mergeOptions, lines 432-478). -/

/-- The per-field merge step (mergeField, lines 472-476): the field's
strategy (or the default) applied to the parent's and child's readings
of the field. -/
def mergeFieldE (parent child : JSVal) (vm : Bool) (key : String) :
    Except String (JSVal × List String) :=
  stratApply key (getV parent key) (getV child key) vm

/-- The two key loops (lines 464-471) run as one pass over the combined
key list, assigning options[key] in order. -/
def runFields (parent child : JSVal) (vm : Bool) :
    List String → Entries → List String → Except String (Entries × List String)
  | [], acc, ev => .ok (acc, ev)
  | k :: ks, acc, ev =>
      match mergeFieldE parent child vm k with
      | .error e => .error e
      | .ok (v, e1) => runFields parent child vm ks (esetUpd acc k v) (ev ++ e1)

/-- Every for-in key of the parent, then every for-in key of the child
not own-present on the parent (lines 464-471). -/
def mergeKeyList (parent child : JSVal) : List String :=
  forInKeys parent ++ (forInKeys child).filter (fun k => !(hasOwnV parent k))

/-- The field-merge core of mergeOptions: the freshly allocated result
mapping (const options = {}) filled by mergeField over the combined key
list. -/
def mergeFields (parent child : JSVal) (vm : Bool) :
    Except String (JSVal × List String) :=
  match runFields parent child vm (mergeKeyList parent child) .enil [] with
  | .error e => .error e
  | .ok (es, ev) => .ok (.obj es .jsNull, ev)

/-- The mixin fold (lines 456-460): parent := mergeOptions(parent,
mixin) for each mixin in list order, with the recursive merge passed in
as a parameter. -/
def mixinFoldE (recm : JSVal → JSVal → Bool → Except String (JSVal × List String))
    (vm : Bool) : JSVal → VList → Except String (JSVal × List String)
  | parent, .vnil => .ok (parent, [])
  | parent, .vcons m rest =>
      (recm parent m vm).bind (fun pe1 =>
        (mixinFoldE recm vm pe1.1 rest).map (fun pe2 => (pe2.1, pe1.2 ++ pe2.2)))

/-- The base-config expansion step (lines 450-453): a truthy extends
field folds the declared base into the parent through the recursive
merge. -/
def expandStepE
    (recm : JSVal → JSVal → Bool → Except String (JSVal × List String))
    (parent ext : JSVal) (vm : Bool) : Except String (JSVal × List String) :=
  if truthy ext then recm parent ext vm else .ok (parent, [])

/-- The mixin expansion step (lines 456-460): a truthy mixins field, when
an array, is folded into the parent in list order (a truthy non-array
has no indices below its undefined length and contributes nothing). -/
def mixinStepE
    (recm : JSVal → JSVal → Bool → Except String (JSVal × List String))
    (parent mx : JSVal) (vm : Bool) : Except String (JSVal × List String) :=
  if truthy mx then
    match mx with
    | .arr ms => mixinFoldE recm vm parent ms
    | _ => .ok (parent, [])
  else .ok (parent, [])

/-- The constructor unwrapping (lines 442-444): typeof child is a
function means a component constructor; its attached options replace it
(a plain function has no attached options and reads as undefined). -/
def unwrapCtor : JSVal → JSVal
  | .fn (.ctorFn opts) => opts
  | .fn _ => .undefV
  | c => c

/-- The body of mergeOptions after constructor unwrapping: normalize the
child, fold the base config and the mixins into the parent, then merge
the fields. -/
def mergeOptionsCore
    (recm : JSVal → JSVal → Bool → Except String (JSVal × List String))
    (parent child1 : JSVal) (vm : Bool) : Except String (JSVal × List String) :=
  match child1 with
  | .obj ces cproto =>
      let child := normalizeDirectives (normalizeInject (normalizeProps (.obj ces cproto)))
      (expandStepE recm parent (getV child "extends") vm).bind (fun pe1 =>
        (mixinStepE recm pe1.1 (getV child "mixins") vm).bind (fun pe2 =>
          (mergeFields pe2.1 child vm).map (fun re3 =>
            (re3.1, pe1.2 ++ pe2.2 ++ re3.2))))
  | _ => .error "TypeError: cannot normalize a non-object options value"

/-- One unfolding of mergeOptions (lines 432-478), parameterized by the
recursive merge used for the base-config reference and the mixin list:
a constructor child is replaced by its attached options; the child is
normalized (props, inject, directives); the declared base config and
then each mixin is folded into the parent; finally the fields are
merged.  A child that is not an object (after constructor unwrapping)
faults: the JavaScript original's normalization passes fault reading or
assigning properties of a primitive.  checkComponents emits diagnostics
only. -/
def mergeOptionsBody
    (recm : JSVal → JSVal → Bool → Except String (JSVal × List String))
    (parent child0 : JSVal) (vm : Bool) : Except String (JSVal × List String) :=
  mergeOptionsCore recm parent (unwrapCtor child0) vm

/-- mergeOptions with a recursion budget: the source recurses without a
cycle check, so the embedding spends one unit of budget per recursive
expansion (the budget is an embedding artifact; any budget at least the
inheritance-graph depth gives the source's behavior). -/
def mergeOptionsE : Nat → JSVal → JSVal → Bool → Except String (JSVal × List String)
  | 0, _, _, _ => .error "RangeError: maximum call stack size exceeded"
  | Nat.succ n, parent, child, vm => mergeOptionsBody (mergeOptionsE n) parent child vm

/-!  Named-Asset Resolver (resolveAsset, lines 485-511). -/

/-- The JavaScript logical-or chain value. -/
def jsOr (a b : JSVal) : JSVal := if truthy a then a else b

/-- resolveAsset (lines 485-511): own presence of the exact id, the
camel-cased id, then the capitalized camel-cased id; failing all three,
the prototype-chain member reads of the same three variants, combined
with logical or.  The member reads fault when the category entry is
undefined or null.  The warnMissing flag only selects a diagnostic and
does not affect the value. -/
def resolveAssetE (options : JSVal) (ty id : String) (_warnMissing : Bool) :
    Except String JSVal :=
  let assets := getV options ty
  if hasOwnV assets id then .ok (getV assets id)
  else
    let camelizedId := camelize id
    if hasOwnV assets camelizedId then .ok (getV assets camelizedId)
    else
      let pascalCaseId := capitalize camelizedId
      if hasOwnV assets pascalCaseId then .ok (getV assets pascalCaseId)
      else
        match getMemberE assets id, getMemberE assets camelizedId,
              getMemberE assets pascalCaseId with
        | .error e, _, _ => .error e
        | _, .error e, _ => .error e
        | _, _, .error e => .error e
        | .ok a, .ok b, .ok c => .ok (jsOr (jsOr a b) c)

/-!  Concrete configurations used by the claim-level theorems. -/

/-- Entry-list append. -/
def eapp : Entries → Entries → Entries
  | .enil, ys => ys
  | .econs k v r, ys => .econs k v (eapp r ys)

/-- Field read out of a merge result, for stating concrete facts. -/
def okGet (r : Except String (JSVal × List String)) (k : String) : JSVal :=
  match r with
  | .ok (v, _) => getV v k
  | .error _ => .jsNull

/-- Event trace of a merge result. -/
def okEvents (r : Except String (JSVal × List String)) : List String :=
  match r with
  | .ok (_, ev) => ev
  | .error _ => []

def P7 : JSVal := .obj (.econs "a" (.num 9) .enil) .jsNull

def M1 : JSVal := .obj (.econs "a" (.num 1) .enil) .jsNull

def M2 : JSVal := .obj (.econs "a" (.num 2) .enil) .jsNull

def C7with : JSVal :=
  .obj (.econs "mixins" (.arr (.vcons M1 (.vcons M2 .vnil)))
         (.econs "a" (.num 3) .enil)) .jsNull

def C7without : JSVal :=
  .obj (.econs "mixins" (.arr (.vcons M1 (.vcons M2 .vnil))) .enil) .jsNull

def dp3 : JSVal :=
  .obj (.econs "data"
         (.obj (.econs "x" (.num 2) (.econs "y" (.num 3) .enil)) .jsNull) .enil) .jsNull

def dc3 : JSVal :=
  .obj (.econs "data" (.obj (.econs "x" (.num 1) .enil) .jsNull) .enil) .jsNull

def C3res : JSVal :=
  .obj (.econs "data"
          (.fn (.mergedInstanceDataFn
                 (.obj (.econs "x" (.num 2) (.econs "y" (.num 3) .enil)) .jsNull)
                 (.obj (.econs "x" (.num 1) .enil) .jsNull)))
          (.econs "inject" (.obj .enil .jsNull) .enil)) .jsNull

def C4obj : JSVal := .obj (.econs "a" (.num 1) .enil) .jsNull

def C8parent : JSVal := .obj (.econs "Foo" (.num 10) .enil) .jsNull

def C8child : JSVal := .obj (.econs "Bar" (.num 20) .enil) .jsNull

def C8res : JSVal := .obj (.econs "Bar" (.num 20) .enil) C8parent

def C8cfg : JSVal := .obj (.econs "components" C8res .enil) .jsNull

def hookP : JSVal := .obj (.econs "created" (.fn (.userFn 0 .undefV)) .enil) .jsNull

def hookC : JSVal := .obj (.econs "created" (.fn (.userFn 1 .undefV)) .enil) .jsNull

def C9child : JSVal := .obj (.econs "props" (.num 5) .enil) .jsNull

def C9res : JSVal :=
  .obj (.econs "props" (.obj .enil .jsNull)
         (.econs "inject" (.obj .enil .jsNull) .enil)) .jsNull

/-!  Lemma layer: spine induction for the mutual value type, entry-list
facts, and characterizations of the merge loops. -/

@[induction_eliminator]
theorem entriesInd {motive : Entries → Prop} (enil : motive .enil)
    (econs : ∀ (k : String) (v : JSVal) (rest : Entries),
      motive rest → motive (.econs k v rest)) :
    ∀ es, motive es
  | .enil => enil
  | .econs k v r => econs k v r (entriesInd enil econs r)

theorem elookup_esetUpd_self (es : Entries) (k : String) (v : JSVal) :
    elookup (esetUpd es k v) k = some v := by
  induction es with
  | enil => simp [esetUpd, elookup]
  | econs k0 v0 r ih =>
      by_cases h : k = k0
      · simp [esetUpd, elookup, h]
      · simp [esetUpd, elookup, h, ih]

theorem elookup_esetUpd_ne (es : Entries) (k k' : String) (v : JSVal)
    (h : k' ≠ k) : elookup (esetUpd es k v) k' = elookup es k' := by
  induction es with
  | enil => simp [esetUpd, elookup, h]
  | econs k0 v0 r ih =>
      by_cases h0 : k = k0
      · subst h0; simp [esetUpd, elookup, h]
      · simp [esetUpd, elookup, h0, ih]

theorem mem_ekeys_iff_isSome (es : Entries) (k : String) :
    k ∈ ekeys es ↔ (elookup es k).isSome = true := by
  induction es with
  | enil => simp [ekeys, elookup]
  | econs k0 v0 r ih =>
      by_cases h : k = k0
      · simp [ekeys, elookup, h]
      · simp [ekeys, elookup, h, ih]

theorem elookup_eq_none_iff (es : Entries) (k : String) :
    elookup es k = none ↔ k ∉ ekeys es := by
  rw [mem_ekeys_iff_isSome]
  cases elookup es k <;> simp

theorem ekeys_esetUpd_not_mem (es : Entries) (k : String) (v : JSVal)
    (h : k ∉ ekeys es) : ekeys (esetUpd es k v) = ekeys es ++ [k] := by
  induction es with
  | enil => simp [esetUpd, ekeys]
  | econs k0 v0 r ih =>
      simp only [ekeys, List.mem_cons] at h
      push_neg at h
      simp [esetUpd, h.1, ekeys, ih h.2]

theorem ekeys_esetUpd_mem (es : Entries) (k : String) (v : JSVal)
    (h : k ∈ ekeys es) : ekeys (esetUpd es k v) = ekeys es := by
  induction es with
  | enil => simp [ekeys] at h
  | econs k0 v0 r ih =>
      by_cases h0 : k = k0
      · simp [esetUpd, h0, ekeys]
      · simp only [ekeys, List.mem_cons, h0, false_or] at h
        simp [esetUpd, h0, ekeys, ih h]

theorem esetUpd_of_lookup_eq (es : Entries) (k : String) (v : JSVal)
    (h : elookup es k = some v) : esetUpd es k v = es := by
  induction es with
  | enil => simp [elookup] at h
  | econs k0 v0 r ih =>
      by_cases h0 : k = k0
      · subst h0
        simp [elookup] at h
        simp [esetUpd, h]
      · simp only [elookup, if_neg h0] at h
        simp [esetUpd, h0, ih h]

theorem esetUpd_not_mem_eapp (es : Entries) (k : String) (v : JSVal)
    (h : k ∉ ekeys es) : esetUpd es k v = eapp es (.econs k v .enil) := by
  induction es with
  | enil => simp [esetUpd, eapp]
  | econs k0 v0 r ih =>
      simp only [ekeys, List.mem_cons] at h
      push_neg at h
      simp [esetUpd, h.1, eapp, ih h.2]

theorem forInKeys_plain (es : Entries) : forInKeys (.obj es .jsNull) = ekeys es := by
  simp [forInKeys]

theorem getV_obj_some (es : Entries) (p : JSVal) (k : String) (v : JSVal)
    (h : elookup es k = some v) : getV (.obj es p) k = v := by
  simp [getV, h]

theorem getV_plain_none (es : Entries) (k : String)
    (h : elookup es k = none) : getV (.obj es .jsNull) k = .undefV := by
  simp [getV, h]

theorem hasOwnV_obj (es : Entries) (p : JSVal) (k : String) :
    hasOwnV (.obj es p) k = (elookup es k).isSome := rfl

@[induction_eliminator]
theorem vlistInd {motive : VList → Prop} (vnil : motive .vnil)
    (vcons : ∀ (v : JSVal) (rest : VList), motive rest → motive (.vcons v rest)) :
    ∀ vs, motive vs
  | .vnil => vnil
  | .vcons v r => vcons v r (vlistInd vnil vcons r)

theorem isSome_esetUpd (es : Entries) (k k0 : String) (v : JSVal)
    (h : (elookup es k).isSome = true) :
    (elookup (esetUpd es k0 v) k).isSome = true := by
  by_cases hk : k = k0
  · subst hk; simp [elookup_esetUpd_self]
  · rw [elookup_esetUpd_ne es k0 k v hk]; exact h

theorem stratApply_events (key : String) (p c : JSVal) (vm : Bool)
    (v : JSVal) (e : List String)
    (h : stratApply key p c vm = .ok (v, e)) : e = [] := by
  unfold stratApply at h
  repeat' split at h
  all_goals simp_all

theorem mergeFieldE_events (p c : JSVal) (vm : Bool) (key : String)
    (v : JSVal) (e : List String)
    (h : mergeFieldE p c vm key = .ok (v, e)) : e = [] :=
  stratApply_events key (getV p key) (getV c key) vm v e h

theorem runFields_events (p c : JSVal) (vm : Bool) (keys : List String) :
    ∀ (acc : Entries) (ev0 : List String) (es : Entries) (ev : List String),
    runFields p c vm keys acc ev0 = .ok (es, ev) → ev = ev0 := by
  induction keys with
  | nil =>
      intro acc ev0 es ev h
      simp only [runFields, Except.ok.injEq, Prod.mk.injEq] at h
      exact h.2.symm
  | cons k ks ih =>
      intro acc ev0 es ev h
      unfold runFields at h
      cases heq : mergeFieldE p c vm k with
      | error e0 => rw [heq] at h; cases h
      | ok ve =>
          obtain ⟨v, e1⟩ := ve
          rw [heq] at h
          have he1 : e1 = [] := mergeFieldE_events p c vm k v e1 heq
          have := ih (esetUpd acc k v) (ev0 ++ e1) es ev h
          simpa [he1] using this

theorem runFields_mem (p c : JSVal) (vm : Bool) (keys : List String) :
    ∀ (acc : Entries) (ev0 : List String) (es : Entries) (ev : List String),
    runFields p c vm keys acc ev0 = .ok (es, ev) →
    (∀ k, (elookup acc k).isSome = true → (elookup es k).isSome = true) ∧
    (∀ k, k ∈ keys → (elookup es k).isSome = true) := by
  induction keys with
  | nil =>
      intro acc ev0 es ev h
      simp only [runFields, Except.ok.injEq, Prod.mk.injEq] at h
      constructor
      · intro k hk; rw [← h.1]; exact hk
      · intro k hk; simp at hk
  | cons k0 ks ih =>
      intro acc ev0 es ev h
      unfold runFields at h
      cases heq : mergeFieldE p c vm k0 with
      | error e0 => rw [heq] at h; cases h
      | ok ve =>
          obtain ⟨v, e1⟩ := ve
          rw [heq] at h
          have hrec := ih (esetUpd acc k0 v) (ev0 ++ e1) es ev h
          constructor
          · intro k hk
            exact hrec.1 k (isSome_esetUpd acc k k0 v hk)
          · intro k hk
            rcases List.mem_cons.mp hk with hk | hk
            · subst hk
              exact hrec.1 k (by simp [elookup_esetUpd_self])
            · exact hrec.2 k hk

theorem runFields_char (p c : JSVal) (vm : Bool) (keys : List String) :
    ∀ (acc : Entries) (ev0 : List String) (es : Entries) (ev : List String),
    runFields p c vm keys acc ev0 = .ok (es, ev) →
    keys.Nodup →
    (∀ k, k ∈ keys → k ∉ ekeys acc) →
    ekeys es = ekeys acc ++ keys ∧
    (∀ k, k ∈ keys →
      ∃ v e1, mergeFieldE p c vm k = .ok (v, e1) ∧ elookup es k = some v) ∧
    (∀ k, k ∉ keys → elookup es k = elookup acc k) := by
  induction keys with
  | nil =>
      intro acc ev0 es ev h _ _
      simp only [runFields, Except.ok.injEq, Prod.mk.injEq] at h
      refine ⟨by rw [← h.1]; simp, ?_, ?_⟩
      · intro k hk; simp at hk
      · intro k _; rw [← h.1]
  | cons k0 ks ih =>
      intro acc ev0 es ev h hnd hdisj
      unfold runFields at h
      cases heq : mergeFieldE p c vm k0 with
      | error e0 => rw [heq] at h; cases h
      | ok ve =>
          obtain ⟨v, e1⟩ := ve
          rw [heq] at h
          have hk0acc : k0 ∉ ekeys acc := hdisj k0 (by simp)
          have hkeys' : ekeys (esetUpd acc k0 v) = ekeys acc ++ [k0] :=
            ekeys_esetUpd_not_mem acc k0 v hk0acc
          have hnd' : ks.Nodup := hnd.of_cons
          have hk0ks : k0 ∉ ks := by
            have := List.nodup_cons.mp hnd; exact this.1
          have hdisj' : ∀ k, k ∈ ks → k ∉ ekeys (esetUpd acc k0 v) := by
            intro k hk
            rw [hkeys']
            simp only [List.mem_append, List.mem_singleton]
            push_neg
            refine ⟨hdisj k (by simp [hk]), ?_⟩
            intro he; subst he; exact hk0ks hk
          obtain ⟨h1, h2, h3⟩ := ih (esetUpd acc k0 v) (ev0 ++ e1) es ev h hnd' hdisj'
          refine ⟨?_, ?_, ?_⟩
          · rw [h1, hkeys', List.append_assoc]
            rfl
          · intro k hk
            rcases List.mem_cons.mp hk with hk | hk
            · subst hk
              refine ⟨v, e1, heq, ?_⟩
              rw [h3 k hk0ks, elookup_esetUpd_self]
            · exact h2 k hk
          · intro k hk
            simp only [List.mem_cons] at hk
            push_neg at hk
            rw [h3 k hk.2, elookup_esetUpd_ne acc k0 k v hk.1]

/-- C1: for plain parent and child configuration mappings (the shape a
ConfigNode has after base-config/mixin expansion and normalization), the
field-merge core of mergeOptions builds a fresh null-prototype mapping
whose own keys are exactly the parent's fields followed by the
child-only fields, each key bound once (no field visited twice) to the
value of that field's strategy applied to (parent[field], child[field]),
where a child-only field reads parent[field] as undefined. -/
theorem mergeOptions_resolved_config_exact_fields
    (pes ces : Entries) (vm : Bool) (res : JSVal) (ev : List String)
    (hp : (ekeys pes).Nodup) (hc : (ekeys ces).Nodup)
    (h : mergeFields (.obj pes .jsNull) (.obj ces .jsNull) vm = .ok (res, ev)) :
    ∃ es, res = .obj es .jsNull ∧
      ekeys es = ekeys pes ++
        (ekeys ces).filter (fun k => !(hasOwnV (.obj pes .jsNull) k)) ∧
      (ekeys es).Nodup ∧
      (∀ k, k ∈ ekeys es → ∃ v e1,
        stratApply k (getV (.obj pes .jsNull) k) (getV (.obj ces .jsNull) k) vm
          = .ok (v, e1) ∧
        elookup es k = some v) ∧
      (∀ k, k ∈ ekeys ces → hasOwnV (.obj pes .jsNull) k = false →
        getV (.obj pes .jsNull) k = .undefV) ∧
      (∀ k, k ∉ ekeys es → elookup es k = none) := by
  unfold mergeFields at h
  cases hrun : runFields (.obj pes .jsNull) (.obj ces .jsNull) vm
      (mergeKeyList (.obj pes .jsNull) (.obj ces .jsNull)) .enil [] with
  | error e0 => rw [hrun] at h; cases h
  | ok esev =>
      obtain ⟨es, ev'⟩ := esev
      rw [hrun] at h
      simp only [Except.ok.injEq, Prod.mk.injEq] at h
      obtain ⟨hres, _⟩ := h
      have hkl : mergeKeyList (.obj pes .jsNull) (.obj ces .jsNull)
          = ekeys pes ++
            (ekeys ces).filter (fun k => !(hasOwnV (.obj pes .jsNull) k)) := by
        unfold mergeKeyList
        rw [forInKeys_plain, forInKeys_plain]
      have hdisj : (ekeys pes).Disjoint
          ((ekeys ces).filter (fun k => !(hasOwnV (.obj pes .jsNull) k))) := by
        intro a ha haf
        have hf := List.of_mem_filter haf
        rw [mem_ekeys_iff_isSome] at ha
        simp only [hasOwnV, ha] at hf
        cases hf
      have hklnd : (mergeKeyList (.obj pes .jsNull) (.obj ces .jsNull)).Nodup := by
        rw [hkl]
        exact List.Nodup.append hp (hc.filter _) hdisj
      have hdisj0 : ∀ k, k ∈ mergeKeyList (.obj pes .jsNull) (.obj ces .jsNull) →
          k ∉ ekeys (Entries.enil) := by
        intro k _
        simp [ekeys]
      obtain ⟨h1, h2, h3⟩ := runFields_char (.obj pes .jsNull) (.obj ces .jsNull) vm
        (mergeKeyList (.obj pes .jsNull) (.obj ces .jsNull)) .enil [] es ev' hrun hklnd hdisj0
      have hkeys : ekeys es = ekeys pes ++
          (ekeys ces).filter (fun k => !(hasOwnV (.obj pes .jsNull) k)) := by
        rw [h1, ← hkl]; rfl
      refine ⟨es, hres.symm, hkeys, ?_, ?_, ?_, ?_⟩
      · rw [hkeys, ← hkl]; exact hklnd
      · intro k hk
        have hkmem : k ∈ mergeKeyList (.obj pes .jsNull) (.obj ces .jsNull) := by
          rw [hkl, ← hkeys]; exact hk
        obtain ⟨v, e1, hstrat, hlook⟩ := h2 k hkmem
        exact ⟨v, e1, hstrat, hlook⟩
      · intro k _ hown
        simp only [hasOwnV] at hown
        have : elookup pes k = none := by
          cases hl : elookup pes k with
          | none => rfl
          | some v => rw [hl] at hown; cases hown
        exact getV_plain_none pes k this
      · intro k hk
        have : k ∉ mergeKeyList (.obj pes .jsNull) (.obj ces .jsNull) := by
          rw [hkl, ← hkeys]; exact hk
        rw [h3 k this]
        rfl

theorem mergeDataGo_char (fes : Entries) :
    ∀ tes : Entries, (ekeys fes).Nodup →
    ekeys (mergeDataGo tes fes).1
      = ekeys tes ++ (ekeys fes).filter (fun k => (elookup tes k).isNone) ∧
    (∀ k, elookup fes k = none →
      elookup (mergeDataGo tes fes).1 k = elookup tes k) ∧
    (∀ k v, elookup fes k = some v → elookup tes k = none →
      elookup (mergeDataGo tes fes).1 k = some v ∧ k ∈ (mergeDataGo tes fes).2) ∧
    (∀ k v tv, elookup fes k = some v → elookup tes k = some tv →
      elookup (mergeDataGo tes fes).1 k
        = some (if isPlainObject tv && isPlainObject v then (mergeData tv v).1 else tv)) := by
  induction fes with
  | enil =>
      intro tes _
      refine ⟨by simp [mergeDataGo, ekeys], ?_, ?_, ?_⟩
      · intro k _; simp [mergeDataGo]
      · intro k v hv _; simp [elookup] at hv
      · intro k v tv hv _; simp [elookup] at hv
  | econs k v rest ih =>
      intro tes hnd
      have hk : k ∉ ekeys rest := (List.nodup_cons.mp hnd).1
      have hnd' : (ekeys rest).Nodup := (List.nodup_cons.mp hnd).2
      have hrestk : elookup rest k = none := (elookup_eq_none_iff rest k).mpr hk
      cases htk : elookup tes k with
      | none =>
          have hunf : mergeDataGo tes (.econs k v rest)
              = ((mergeDataGo (esetUpd tes k v) rest).1,
                 k :: (mergeDataGo (esetUpd tes k v) rest).2) := by
            simp [mergeDataGo, htk]
          have hknot : k ∉ ekeys tes := (elookup_eq_none_iff tes k).mp htk
          have hkeys' : ekeys (esetUpd tes k v) = ekeys tes ++ [k] :=
            ekeys_esetUpd_not_mem tes k v hknot
          obtain ⟨ih1, ih2, ih3, ih4⟩ := ih (esetUpd tes k v) hnd'
          have hfc : (ekeys rest).filter
                (fun k0 => (elookup (esetUpd tes k v) k0).isNone)
              = (ekeys rest).filter (fun k0 => (elookup tes k0).isNone) := by
            apply List.filter_congr
            intro x hx
            have hxk : x ≠ k := by intro he; subst he; exact hk hx
            rw [elookup_esetUpd_ne tes k x v hxk]
          refine ⟨?_, ?_, ?_, ?_⟩
          · rw [hunf]
            simp only
            rw [ih1, hfc, hkeys']
            simp only [ekeys, List.filter_cons, htk, Option.isNone_none,
              if_pos, List.append_assoc]
            rfl
          · intro k0 h0
            simp only [elookup] at h0
            by_cases hk0 : k0 = k
            · subst hk0; simp at h0
            · rw [if_neg hk0] at h0
              rw [hunf]
              simp only
              rw [ih2 k0 h0, elookup_esetUpd_ne tes k k0 v hk0]
          · intro k0 v0 h0 ht0
            by_cases hk0 : k0 = k
            · subst hk0
              simp [elookup] at h0
              subst h0
              rw [hunf]
              simp only
              constructor
              · rw [ih2 k0 hrestk, elookup_esetUpd_self]
              · simp
            · simp only [elookup, if_neg hk0] at h0
              have ht0' : elookup (esetUpd tes k v) k0 = none := by
                rw [elookup_esetUpd_ne tes k k0 v hk0]; exact ht0
              obtain ⟨ha, hb⟩ := ih3 k0 v0 h0 ht0'
              rw [hunf]
              exact ⟨ha, by simp [hb]⟩
          · intro k0 v0 tv h0 ht0
            by_cases hk0 : k0 = k
            · subst hk0; rw [htk] at ht0; cases ht0
            · simp only [elookup, if_neg hk0] at h0
              have ht0' : elookup (esetUpd tes k v) k0 = some tv := by
                rw [elookup_esetUpd_ne tes k k0 v hk0]; exact ht0
              rw [hunf]
              simp only
              exact ih4 k0 v0 tv h0 ht0'
      | some toVal =>
          have hkin : k ∈ ekeys tes :=
            (mem_ekeys_iff_isSome tes k).mpr (by simp [htk])
          by_cases hpl : (isPlainObject toVal && isPlainObject v) = true
          · have hunf : mergeDataGo tes (.econs k v rest)
                = ((mergeDataGo (esetUpd tes k (mergeData toVal v).1) rest).1,
                   (mergeData toVal v).2 ++
                     (mergeDataGo (esetUpd tes k (mergeData toVal v).1) rest).2) := by
              simp [mergeDataGo, htk, hpl]
            have hkeys' : ekeys (esetUpd tes k (mergeData toVal v).1) = ekeys tes :=
              ekeys_esetUpd_mem tes k _ hkin
            obtain ⟨ih1, ih2, ih3, ih4⟩ := ih (esetUpd tes k (mergeData toVal v).1) hnd'
            have hfc : (ekeys rest).filter
                  (fun k0 => (elookup (esetUpd tes k (mergeData toVal v).1) k0).isNone)
                = (ekeys rest).filter (fun k0 => (elookup tes k0).isNone) := by
              apply List.filter_congr
              intro x hx
              have hxk : x ≠ k := by intro he; subst he; exact hk hx
              rw [elookup_esetUpd_ne tes k x _ hxk]
            refine ⟨?_, ?_, ?_, ?_⟩
            · rw [hunf]
              simp only
              rw [ih1, hfc, hkeys']
              simp [ekeys, List.filter_cons, htk]
            · intro k0 h0
              simp only [elookup] at h0
              by_cases hk0 : k0 = k
              · subst hk0; simp at h0
              · rw [if_neg hk0] at h0
                rw [hunf]
                simp only
                rw [ih2 k0 h0, elookup_esetUpd_ne tes k k0 _ hk0]
            · intro k0 v0 h0 ht0
              by_cases hk0 : k0 = k
              · subst hk0; rw [htk] at ht0; cases ht0
              · simp only [elookup, if_neg hk0] at h0
                have ht0' : elookup (esetUpd tes k (mergeData toVal v).1) k0 = none := by
                  rw [elookup_esetUpd_ne tes k k0 _ hk0]; exact ht0
                obtain ⟨ha, hb⟩ := ih3 k0 v0 h0 ht0'
                rw [hunf]
                exact ⟨ha, by simp [hb]⟩
            · intro k0 v0 tv h0 ht0
              by_cases hk0 : k0 = k
              · subst hk0
                simp [elookup] at h0
                subst h0
                rw [htk, Option.some.injEq] at ht0
                subst ht0
                rw [hunf]
                simp only
                rw [ih2 k0 hrestk, elookup_esetUpd_self, hpl, if_pos rfl]
              · simp only [elookup, if_neg hk0] at h0
                have ht0' : elookup (esetUpd tes k (mergeData toVal v).1) k0 = some tv := by
                  rw [elookup_esetUpd_ne tes k k0 _ hk0]; exact ht0
                rw [hunf]
                simp only
                exact ih4 k0 v0 tv h0 ht0'
          · have hunf : mergeDataGo tes (.econs k v rest) = mergeDataGo tes rest := by
              simp [mergeDataGo, htk, hpl]
            obtain ⟨ih1, ih2, ih3, ih4⟩ := ih tes hnd'
            refine ⟨?_, ?_, ?_, ?_⟩
            · rw [hunf, ih1]
              simp [ekeys, List.filter_cons, htk]
            · intro k0 h0
              simp only [elookup] at h0
              by_cases hk0 : k0 = k
              · subst hk0; simp at h0
              · rw [if_neg hk0] at h0
                rw [hunf]
                exact ih2 k0 h0
            · intro k0 v0 h0 ht0
              by_cases hk0 : k0 = k
              · subst hk0; rw [htk] at ht0; cases ht0
              · simp only [elookup, if_neg hk0] at h0
                rw [hunf]
                exact ih3 k0 v0 h0 ht0
            · intro k0 v0 tv h0 ht0
              by_cases hk0 : k0 = k
              · subst hk0
                simp [elookup] at h0
                subst h0
                rw [htk, Option.some.injEq] at ht0
                subst ht0
                rw [hunf, ih2 k0 hrestk, htk]
                simp only [Option.some.injEq]
                rw [if_neg hpl]
              · simp only [elookup, if_neg hk0] at h0
                rw [hunf]
                exact ih4 k0 v0 tv h0 ht0

/-- C2: mergeData processes every key of the source mapping: a key the
target does not own is installed (and registered through set, recorded
in the event trace); a key both own where both values are plain mappings
recurses; any other owned key is left untouched, so the first-installed
value for a shared key is never overridden.  In particular merging
instance data x=1 with ancestor data x=2, y=3 yields x=1, y=3 with one
registration, for y. -/
theorem mergeData_directional_deep_merge
    (tes fes : Entries) (tproto fproto : JSVal) (hnf : (ekeys fes).Nodup) :
    (∃ res ev,
      mergeData (.obj tes tproto) (.obj fes fproto) = (.obj res tproto, ev) ∧
      (∀ k v, elookup fes k = some v → elookup tes k = none →
        elookup res k = some v ∧ k ∈ ev) ∧
      (∀ k v tv, elookup fes k = some v → elookup tes k = some tv →
        elookup res k
          = some (if isPlainObject tv && isPlainObject v
                  then (mergeData tv v).1 else tv)) ∧
      (∀ k, elookup fes k = none → elookup res k = elookup tes k) ∧
      ekeys res = ekeys tes ++ (ekeys fes).filter (fun k => (elookup tes k).isNone)) ∧
    mergeData (.obj (.econs "x" (.num 1) .enil) .jsNull)
        (.obj (.econs "x" (.num 2) (.econs "y" (.num 3) .enil)) .jsNull)
      = (.obj (.econs "x" (.num 1) (.econs "y" (.num 3) .enil)) .jsNull, ["y"]) := by
  obtain ⟨h1, h2, h3, h4⟩ := mergeDataGo_char fes tes hnf
  refine ⟨⟨(mergeDataGo tes fes).1, (mergeDataGo tes fes).2, rfl, ?_, ?_, ?_, ?_⟩, rfl⟩
  · intro k v hf ht; exact h3 k v hf ht
  · intro k v tv hf ht; exact h4 k v tv hf ht
  · intro k hf; exact h2 k hf
  · exact h1

/-- C2 witness: the theorem applied to the instance-data versus
ancestor-data example. -/
theorem mergeData_directional_deep_merge_witness :
    (∃ res ev,
      mergeData (.obj (.econs "x" (.num 1) .enil) .jsNull)
          (.obj (.econs "x" (.num 2) (.econs "y" (.num 3) .enil)) .jsNull)
        = (.obj res .jsNull, ev) ∧
      (∀ k v, elookup (.econs "x" (.num 2) (.econs "y" (.num 3) .enil)) k = some v →
        elookup (.econs "x" (.num 1) .enil) k = none →
        elookup res k = some v ∧ k ∈ ev) ∧
      (∀ k v tv, elookup (.econs "x" (.num 2) (.econs "y" (.num 3) .enil)) k = some v →
        elookup (.econs "x" (.num 1) .enil) k = some tv →
        elookup res k
          = some (if isPlainObject tv && isPlainObject v
                  then (mergeData tv v).1 else tv)) ∧
      (∀ k, elookup (.econs "x" (.num 2) (.econs "y" (.num 3) .enil)) k = none →
        elookup res k = elookup (.econs "x" (.num 1) .enil) k) ∧
      ekeys res = ekeys (.econs "x" (.num 1) .enil) ++
        (ekeys (.econs "x" (.num 2) (.econs "y" (.num 3) .enil))).filter
          (fun k => (elookup (.econs "x" (.num 1) .enil) k).isNone)) ∧
    mergeData (.obj (.econs "x" (.num 1) .enil) .jsNull)
        (.obj (.econs "x" (.num 2) (.econs "y" (.num 3) .enil)) .jsNull)
      = (.obj (.econs "x" (.num 1) (.econs "y" (.num 3) .enil)) .jsNull, ["y"]) :=
  mergeData_directional_deep_merge (.econs "x" (.num 1) .enil)
    (.econs "x" (.num 2) (.econs "y" (.num 3) .enil)) .jsNull .jsNull (by decide)

/-- C1 witness: the theorem applied to the concrete plain configs
a=1 (parent) and b=2 (child). -/
theorem mergeOptions_resolved_config_exact_fields_witness :
    ∃ es, (.obj (.econs "a" (.num 1) (.econs "b" (.num 2) .enil)) .jsNull : JSVal)
        = .obj es .jsNull ∧
      ekeys es = ekeys (.econs "a" (.num 1) .enil) ++
        (ekeys (.econs "b" (.num 2) .enil)).filter
          (fun k => !(hasOwnV (.obj (.econs "a" (.num 1) .enil) .jsNull) k)) ∧
      (ekeys es).Nodup ∧
      (∀ k, k ∈ ekeys es → ∃ v e1,
        stratApply k (getV (.obj (.econs "a" (.num 1) .enil) .jsNull) k)
            (getV (.obj (.econs "b" (.num 2) .enil) .jsNull) k) false
          = .ok (v, e1) ∧
        elookup es k = some v) ∧
      (∀ k, k ∈ ekeys (.econs "b" (.num 2) .enil) →
        hasOwnV (.obj (.econs "a" (.num 1) .enil) .jsNull) k = false →
        getV (.obj (.econs "a" (.num 1) .enil) .jsNull) k = .undefV) ∧
      (∀ k, k ∉ ekeys es → elookup es k = none) :=
  mergeOptions_resolved_config_exact_fields (.econs "a" (.num 1) .enil)
    (.econs "b" (.num 2) .enil) false
    (.obj (.econs "a" (.num 1) (.econs "b" (.num 2) .enil)) .jsNull) []
    (by decide) (by decide) rfl

theorem mergeFields_events (parent child : JSVal) (vm : Bool)
    (res : JSVal) (ev : List String)
    (h : mergeFields parent child vm = .ok (res, ev)) : ev = [] := by
  unfold mergeFields at h
  cases hrun : runFields parent child vm (mergeKeyList parent child) .enil [] with
  | error e => rw [hrun] at h; cases h
  | ok esev =>
      obtain ⟨es, ev'⟩ := esev
      rw [hrun] at h
      simp only [Except.ok.injEq, Prod.mk.injEq] at h
      rw [← h.2]
      exact runFields_events parent child vm (mergeKeyList parent child) .enil [] es ev' hrun

theorem mixinFoldE_events
    (recm : JSVal → JSVal → Bool → Except String (JSVal × List String))
    (hrec : ∀ p m vmx r e, recm p m vmx = .ok (r, e) → e = [])
    (vm : Bool) (ms : VList) :
    ∀ (parent p2 : JSVal) (ev : List String),
    mixinFoldE recm vm parent ms = .ok (p2, ev) → ev = [] := by
  induction ms with
  | vnil =>
      intro parent p2 ev h
      simp only [mixinFoldE, Except.ok.injEq, Prod.mk.injEq] at h
      exact h.2.symm
  | vcons m rest ih =>
      intro parent p2 ev h
      unfold mixinFoldE at h
      cases h1 : recm parent m vm with
      | error e => rw [h1] at h; simp [Except.bind] at h
      | ok pe1 =>
          rw [h1] at h
          simp only [Except.bind] at h
          cases h2 : mixinFoldE recm vm pe1.1 rest with
          | error e => rw [h2] at h; simp [Except.map] at h
          | ok pe2 =>
              rw [h2] at h
              simp only [Except.map, Except.ok.injEq, Prod.mk.injEq] at h
              rw [← h.2, hrec parent m vm pe1.1 pe1.2 h1, ih pe1.1 pe2.1 pe2.2 h2]
              rfl

theorem expandStepE_events
    (recm : JSVal → JSVal → Bool → Except String (JSVal × List String))
    (hrec : ∀ p m vmx r e, recm p m vmx = .ok (r, e) → e = [])
    (parent ext : JSVal) (vm : Bool) (r : JSVal) (e : List String)
    (h : expandStepE recm parent ext vm = .ok (r, e)) : e = [] := by
  unfold expandStepE at h
  by_cases hx : truthy ext = true
  · rw [if_pos hx] at h; exact hrec parent ext vm r e h
  · rw [if_neg hx] at h
    simp only [Except.ok.injEq, Prod.mk.injEq] at h
    exact h.2.symm

theorem mixinStepE_events
    (recm : JSVal → JSVal → Bool → Except String (JSVal × List String))
    (hrec : ∀ p m vmx r e, recm p m vmx = .ok (r, e) → e = [])
    (parent mx : JSVal) (vm : Bool) (r : JSVal) (e : List String)
    (h : mixinStepE recm parent mx vm = .ok (r, e)) : e = [] := by
  unfold mixinStepE at h
  by_cases hx : truthy mx = true
  · rw [if_pos hx] at h
    cases mx with
    | arr ms => exact mixinFoldE_events recm hrec vm ms parent r e h
    | undefV => simp only [Except.ok.injEq, Prod.mk.injEq] at h; exact h.2.symm
    | jsNull => simp only [Except.ok.injEq, Prod.mk.injEq] at h; exact h.2.symm
    | num n => simp only [Except.ok.injEq, Prod.mk.injEq] at h; exact h.2.symm
    | str s => simp only [Except.ok.injEq, Prod.mk.injEq] at h; exact h.2.symm
    | boolV b => simp only [Except.ok.injEq, Prod.mk.injEq] at h; exact h.2.symm
    | fn f => simp only [Except.ok.injEq, Prod.mk.injEq] at h; exact h.2.symm
    | obj es p => simp only [Except.ok.injEq, Prod.mk.injEq] at h; exact h.2.symm
  · rw [if_neg hx] at h
    simp only [Except.ok.injEq, Prod.mk.injEq] at h
    exact h.2.symm

theorem mergeOptionsCore_events
    (recm : JSVal → JSVal → Bool → Except String (JSVal × List String))
    (hrec : ∀ p m vmx r e, recm p m vmx = .ok (r, e) → e = [])
    (parent child1 : JSVal) (vm : Bool) (res : JSVal) (ev : List String)
    (h : mergeOptionsCore recm parent child1 vm = .ok (res, ev)) : ev = [] := by
  cases child1 with
  | obj ces cproto =>
      simp only [mergeOptionsCore] at h
      cases h1 : expandStepE recm parent
          (getV (normalizeDirectives (normalizeInject (normalizeProps (.obj ces cproto))))
            "extends") vm with
      | error e => rw [h1] at h; simp [Except.bind] at h
      | ok pe1 =>
          rw [h1] at h
          simp only [Except.bind] at h
          cases h2 : mixinStepE recm pe1.1
              (getV (normalizeDirectives (normalizeInject (normalizeProps (.obj ces cproto))))
                "mixins") vm with
          | error e => rw [h2] at h; simp [Except.bind] at h
          | ok pe2 =>
              rw [h2] at h
              simp only [Except.bind] at h
              cases h3 : mergeFields pe2.1
                  (normalizeDirectives (normalizeInject (normalizeProps (.obj ces cproto)))) vm with
              | error e => rw [h3] at h; simp [Except.map] at h
              | ok re3 =>
                  rw [h3] at h
                  simp only [Except.map, Except.ok.injEq, Prod.mk.injEq] at h
                  rw [← h.2, expandStepE_events recm hrec parent _ vm pe1.1 pe1.2 h1,
                    mixinStepE_events recm hrec pe1.1 _ vm pe2.1 pe2.2 h2,
                    mergeFields_events pe2.1 _ vm re3.1 re3.2 h3]
                  rfl
  | undefV => simp [mergeOptionsCore] at h
  | jsNull => simp [mergeOptionsCore] at h
  | num n => simp [mergeOptionsCore] at h
  | str st => simp [mergeOptionsCore] at h
  | boolV b => simp [mergeOptionsCore] at h
  | fn f => simp [mergeOptionsCore] at h
  | arr elems => simp [mergeOptionsCore] at h

theorem mergeOptionsBody_events
    (recm : JSVal → JSVal → Bool → Except String (JSVal × List String))
    (hrec : ∀ p m vmx r e, recm p m vmx = .ok (r, e) → e = [])
    (parent child0 : JSVal) (vm : Bool) (res : JSVal) (ev : List String)
    (h : mergeOptionsBody recm parent child0 vm = .ok (res, ev)) : ev = [] := by
  unfold mergeOptionsBody at h
  exact mergeOptionsCore_events recm hrec parent (unwrapCtor child0) vm res ev h

theorem mergeOptionsE_events (n : Nat) :
    ∀ (parent child : JSVal) (vm : Bool) (res : JSVal) (ev : List String),
    mergeOptionsE n parent child vm = .ok (res, ev) → ev = [] := by
  induction n with
  | zero => intro parent child vm res ev h; cases h
  | succ n ih =>
      intro parent child vm res ev h
      exact mergeOptionsBody_events (mergeOptionsE n) ih parent child vm res ev h

/-- C3 counterexample: a mergeOptions call whose inputs carry data
fields and whose deep merge introduces the new key y; the event trace of
the mergeOptions call itself is empty — no reactive registration has
happened when mergeOptions returns — and the registration of y instead
happens when the deferred merged data function held in the result is
invoked afterwards. -/
theorem mergeOptions_sync_set_cex :
    mergeOptionsE 1 dp3 dc3 true = .ok (C3res, []) ∧
    callIfFn (getV C3res "data")
      = (.obj (.econs "x" (.num 1) (.econs "y" (.num 3) .enil)) .jsNull, ["y"]) :=
  ⟨rfl, rfl⟩

/-- C3 (amended): the reactive-registration side effect is deferred, not
synchronous: every successful mergeOptions call returns an empty
set-event trace, the data strategy instead storing a closure; the set
calls occur once per newly introduced key only when that closure is
invoked after mergeOptions has returned, as on the concrete config
where invoking the stored closure registers exactly the new key y. -/
theorem mergeOptions_set_events_deferred :
    (∀ (n : Nat) (parent child : JSVal) (vm : Bool) (res : JSVal) (ev : List String),
      mergeOptionsE n parent child vm = .ok (res, ev) → ev = []) ∧
    mergeOptionsE 1 dp3 dc3 true = .ok (C3res, []) ∧
    callIfFn (getV C3res "data")
      = (.obj (.econs "x" (.num 1) (.econs "y" (.num 3) .enil)) .jsNull, ["y"]) :=
  ⟨fun n => mergeOptionsE_events n, rfl, rfl⟩

/-- C3 witness: the deferral theorem applied to the concrete merge. -/
theorem mergeOptions_set_events_deferred_witness :
    okEvents (mergeOptionsE 1 dp3 dc3 true) = [] :=
  (mergeOptions_set_events_deferred).1 1 dp3 dc3 true C3res
    (okEvents (mergeOptionsE 1 dp3 dc3 true)) rfl

/-- C4 counterexample: a static merge of a data-bearing field (here
provide, whose strategy is mergeDataOrFn itself) with only the child
present and that operand a plain mapping returns the mapping unchanged —
not a function wrapping a deferred merge. -/
theorem mergeDataOrFn_single_mapping_cex :
    mergeDataOrFn .undefV C4obj false = C4obj ∧
    isFunction (mergeDataOrFn .undefV C4obj false) = false ∧
    stratApply "provide" .undefV C4obj false = .ok (C4obj, []) :=
  ⟨rfl, rfl, rfl⟩

/-- C4 (amended): in a static merge with exactly one operand present,
mergeDataOrFn returns that operand unchanged — a factory function stays
the very same function and a plain mapping stays a mapping; a deferred
mergedDataFn wrapper is allocated only when both operands are present. -/
theorem mergeDataOrFn_static_single_operand (p c : JSVal) :
    (truthy c = false → mergeDataOrFn p c false = p) ∧
    (truthy c = true → truthy p = false → mergeDataOrFn p c false = c) ∧
    (truthy p = true → truthy c = true →
      mergeDataOrFn p c false = .fn (.mergedDataFn p c)) := by
  refine ⟨?_, ?_, ?_⟩
  · intro h; simp [mergeDataOrFn, h]
  · intro hc hp; simp [mergeDataOrFn, hc, hp]
  · intro hp hc; simp [mergeDataOrFn, hc, hp]

/-- C4 witness: the amended theorem applied at an absent parent and a
plain-mapping child. -/
theorem mergeDataOrFn_static_single_operand_witness :
    mergeDataOrFn .undefV C4obj false = C4obj :=
  (mergeDataOrFn_static_single_operand .undefV C4obj).2.1 rfl rfl

/-- C5 counterexample: a bare-callable parent hook value is not
normalized to a one-element sequence: with a truthy child the source
calls parentVal.concat and faults instead of producing the claimed
two-element sequence, and with an absent child the bare callable is
returned unchanged rather than as a one-element sequence. -/
theorem mergeHook_bare_parent_cex :
    mergeHookE (.fn (.userFn 0 .undefV)) (.fn (.userFn 1 .undefV))
      = .error "TypeError: parentVal.concat is not a function" ∧
    mergeHookE (.fn (.userFn 0 .undefV)) (.fn (.userFn 1 .undefV))
      ≠ .ok (.arr (.vcons (.fn (.userFn 0 .undefV))
          (.vcons (.fn (.userFn 1 .undefV)) .vnil))) ∧
    mergeHookE (.fn (.userFn 0 .undefV)) .undefV = .ok (.fn (.userFn 0 .undefV)) ∧
    mergeHookE (.fn (.userFn 0 .undefV)) .undefV
      ≠ .ok (.arr (.vcons (.fn (.userFn 0 .undefV)) .vnil)) := by
  refine ⟨rfl, ?_, rfl, ?_⟩
  · intro h
    rw [show mergeHookE (.fn (.userFn 0 .undefV)) (.fn (.userFn 1 .undefV))
        = .error "TypeError: parentVal.concat is not a function" from rfl] at h
    cases h
  · intro h
    rw [show mergeHookE (.fn (.userFn 0 .undefV)) .undefV
        = .ok (.fn (.userFn 0 .undefV)) from rfl] at h
    simp at h

/-- C5 (amended): the child value, when truthy, is normalized to a
sequence (a bare callable becomes a one-element sequence); the parent
value is used as-is — an absent child returns the parent unchanged even
when it is a bare callable, and with both present the parent must
already be a sequence, the result being the parent sequence followed by
the child's elements; an absent parent returns the child's sequence
form. -/
theorem mergeHook_concat_semantics :
    (∀ p : JSVal, mergeHookE p .undefV = .ok p) ∧
    (∀ xs : VList, mergeHookE .undefV (.arr xs) = .ok (.arr xs)) ∧
    (∀ f : FnVal, mergeHookE .undefV (.fn f) = .ok (.arr (.vcons (.fn f) .vnil))) ∧
    (∀ (xs : VList) (c : JSVal), truthy c = true →
      mergeHookE (.arr xs) c = .ok (.arr (vappend xs (hookChildElems c)))) := by
  refine ⟨fun p => rfl, fun xs => rfl, fun f => rfl, ?_⟩
  intro xs c hc
  unfold mergeHookE
  rw [hc]
  simp [truthy]

/-- C5 witness: the amended theorem applied to the sequence parent
a, b and the bare-callable child c, yielding a, b, c. -/
theorem mergeHook_concat_semantics_witness :
    mergeHookE (.arr (.vcons (.fn (.userFn 0 .undefV)) (.vcons (.fn (.userFn 1 .undefV)) .vnil)))
        (.fn (.userFn 2 .undefV))
      = .ok (.arr (vappend (.vcons (.fn (.userFn 0 .undefV)) (.vcons (.fn (.userFn 1 .undefV)) .vnil))
          (hookChildElems (.fn (.userFn 2 .undefV))))) :=
  (mergeHook_concat_semantics).2.2.2
    (.vcons (.fn (.userFn 0 .undefV)) (.vcons (.fn (.userFn 1 .undefV)) .vnil))
    (.fn (.userFn 2 .undefV)) rfl

/-- C7: mixin-order tie-break under the default strategy: merging parent
a=9 with a child declaring mixins M1 (a=1) then M2 (a=2) and its own
a=3 resolves a to 3; the same merge with the child's own a omitted
resolves a to 2 — the later mixin beats the earlier one and both beat
the parent's value. -/
theorem mergeOptions_mixin_tiebreak :
    okGet (mergeOptionsE 3 P7 C7with false) "a" = .num 3 ∧
    okGet (mergeOptionsE 3 P7 C7without false) "a" = .num 2 :=
  ⟨rfl, rfl⟩

/-- C8: resolveAsset checks own presence of the exact id, then the
camel-cased id, then the capitalized camel-cased id, in that order,
before falling back to the prototype-chain reads of the same variants;
merging parent assets Foo=F with child assets Bar=B yields an object
own-containing Bar whose prototype chain resolves Foo, so both Foo and
foo resolve to F and Bar resolves to B on the merged object. -/
theorem resolveAsset_casing_and_chain :
    (∀ (options : JSVal) (ty id : String) (w : Bool),
      hasOwnV (getV options ty) id = true →
      resolveAssetE options ty id w = .ok (getV (getV options ty) id)) ∧
    (∀ (options : JSVal) (ty id : String) (w : Bool),
      hasOwnV (getV options ty) id = false →
      hasOwnV (getV options ty) (camelize id) = true →
      resolveAssetE options ty id w = .ok (getV (getV options ty) (camelize id))) ∧
    (∀ (options : JSVal) (ty id : String) (w : Bool),
      hasOwnV (getV options ty) id = false →
      hasOwnV (getV options ty) (camelize id) = false →
      hasOwnV (getV options ty) (capitalize (camelize id)) = true →
      resolveAssetE options ty id w
        = .ok (getV (getV options ty) (capitalize (camelize id)))) ∧
    mergeAssetsE C8parent C8child = .ok C8res ∧
    hasOwnV C8res "Bar" = true ∧
    hasOwnV C8res "Foo" = false ∧
    getV C8res "Foo" = .num 10 ∧
    resolveAssetE C8cfg "components" "Foo" false = .ok (.num 10) ∧
    resolveAssetE C8cfg "components" "foo" false = .ok (.num 10) ∧
    resolveAssetE C8cfg "components" "Bar" false = .ok (.num 20) := by
  refine ⟨?_, ?_, ?_, rfl, rfl, rfl, rfl, rfl, rfl, rfl⟩
  · intro options ty id w h
    simp [resolveAssetE, h]
  · intro options ty id w h1 h2
    simp [resolveAssetE, h1, h2]
  · intro options ty id w h1 h2 h3
    simp [resolveAssetE, h1, h2, h3]

/-- C8 witness: the first-priority clause applied to the merged assets
object, resolving the own entry Bar. -/
theorem resolveAsset_casing_and_chain_witness :
    resolveAssetE C8cfg "components" "Bar" false
      = .ok (getV (getV C8cfg "components") "Bar") :=
  (resolveAsset_casing_and_chain).1 C8cfg "components" "Bar" false rfl

/-- C9 counterexample: two fatal faults inside the subsystem: resolving
an asset against a config with no entry at all under the requested
category faults with a type error on the prototype-chain member access,
and mergeOptions faults when a truthy lifecycle-hook child meets a
bare-callable parent hook value. -/
theorem subsystem_fatal_error_cex :
    resolveAssetE (.obj .enil .jsNull) "components" "foo" false
      = .error "TypeError: cannot read property of undefined" ∧
    mergeOptionsE 2 hookP hookC false
      = .error "TypeError: parentVal.concat is not a function" :=
  ⟨rfl, rfl⟩

/-- C9 (amended): resolveAsset runs to completion and returns a value
whenever the resolved config carries an object at the requested asset
category (missing categories fault on the member access instead of
returning undefined, and mergeOptions can fault on malformed parent
hook values); malformed normalizer input shapes are still degraded with
a diagnostic only, as with a numeric props field, which merges to an
empty props mapping. -/
theorem resolveAsset_total_on_present_category :
    (∀ (options : JSVal) (ty id : String) (w : Bool) (aes : Entries) (ap : JSVal),
      getV options ty = .obj aes ap →
      ∃ v, resolveAssetE options ty id w = .ok v) ∧
    mergeOptionsE 1 (.obj .enil .jsNull) C9child false = .ok (C9res, []) := by
  refine ⟨?_, rfl⟩
  intro options ty id w aes ap h
  simp only [resolveAssetE, h]
  by_cases h1 : hasOwnV (.obj aes ap) id = true
  · rw [if_pos h1]; exact ⟨_, rfl⟩
  · rw [if_neg h1]
    by_cases h2 : hasOwnV (.obj aes ap) (camelize id) = true
    · rw [if_pos h2]; exact ⟨_, rfl⟩
    · rw [if_neg h2]
      by_cases h3 : hasOwnV (.obj aes ap) (capitalize (camelize id)) = true
      · rw [if_pos h3]; exact ⟨_, rfl⟩
      · rw [if_neg h3]
        simp [getMemberE]

/-- C9 witness: the totality clause applied to the merged assets config
at an id absent from every casing variant. -/
theorem resolveAsset_total_on_present_category_witness :
    ∃ v, resolveAssetE C8cfg "components" "zzz" false = .ok v :=
  (resolveAsset_total_on_present_category).1 C8cfg "components" "zzz" false
    (.econs "Bar" (.num 20) .enil) C8parent rfl

theorem eapp_enil (es : Entries) : eapp es .enil = es := by
  induction es with
  | enil => rfl
  | econs k v r ih => simp [eapp, ih]

theorem eapp_assoc (a b c : Entries) : eapp (eapp a b) c = eapp a (eapp b c) := by
  induction a with
  | enil => rfl
  | econs k v r ih => simp [eapp, ih]

theorem normalizePropsObjGo_rebuild (P : JSVal) (ks : List String) :
    ∀ acc : Entries,
    (∀ k, k ∈ ks → camelize k = k ∧ isPlainObject (getV P k) = true) →
    normalizePropsObjGo P ks acc
      = List.foldl (fun a k => esetUpd a k (getV P k)) acc ks := by
  induction ks with
  | nil => intro acc _; rfl
  | cons k ks ih =>
      intro acc hk
      have h1 := hk k (by simp)
      simp only [normalizePropsObjGo, h1.2, if_pos, h1.1, List.foldl]
      exact ih _ (fun k' hk' => hk k' (by simp [hk']))

theorem foldl_esetUpd_rebuild (P : JSVal) (spine : Entries) :
    ∀ acc : Entries,
    (∀ k, k ∈ ekeys spine → k ∉ ekeys acc) →
    (ekeys spine).Nodup →
    (∀ k, k ∈ ekeys spine → some (getV P k) = elookup spine k) →
    List.foldl (fun a k => esetUpd a k (getV P k)) acc (ekeys spine)
      = eapp acc spine := by
  induction spine with
  | enil => intro acc _ _ _; simp [ekeys, eapp_enil]
  | econs k v rest ih =>
      intro acc hdisj hnd hvals
      have hv : getV P k = v := by
        have := hvals k (by simp [ekeys])
        simp [elookup] at this
        exact this
      have hkacc : k ∉ ekeys acc := hdisj k (by simp [ekeys])
      have hknotrest : k ∉ ekeys rest := (List.nodup_cons.mp hnd).1
      simp only [ekeys, List.foldl]
      rw [hv, esetUpd_not_mem_eapp acc k v hkacc]
      have hdisj' : ∀ k', k' ∈ ekeys rest → k' ∉ ekeys (eapp acc (.econs k v .enil)) := by
        intro k' hk'
        have hkk : k' ≠ k := by intro he; subst he; exact hknotrest hk'
        have : ekeys (eapp acc (.econs k v .enil)) = ekeys acc ++ [k] := by
          rw [← esetUpd_not_mem_eapp acc k v hkacc]
          exact ekeys_esetUpd_not_mem acc k v hkacc
        rw [this]
        simp only [List.mem_append, List.mem_singleton]
        push_neg
        exact ⟨hdisj k' (by simp [ekeys, hk']), hkk⟩
      have hvals' : ∀ k', k' ∈ ekeys rest → some (getV P k') = elookup rest k' := by
        intro k' hk'
        have hkk : k' ≠ k := by intro he; subst he; exact hknotrest hk'
        have := hvals k' (by simp [ekeys, hk'])
        simpa [elookup, hkk] using this
      rw [ih (eapp acc (.econs k v .enil)) hdisj' (List.nodup_cons.mp hnd).2 hvals']
      rw [eapp_assoc]
      rfl

theorem normalizeProps_fixed (oes : Entries) (oproto : JSVal) (es : Entries)
    (hprops : elookup oes "props" = some (.obj es .jsNull))
    (hnd : (ekeys es).Nodup)
    (hnorm : ∀ k v, elookup es k = some v →
      camelize k = k ∧ isPlainObject v = true) :
    normalizeProps (.obj oes oproto) = .obj oes oproto := by
  have hP : getV (.obj oes oproto) "props" = .obj es .jsNull :=
    getV_obj_some oes oproto "props" _ hprops
  have hrebuild : normalizePropsObjGo (.obj es .jsNull)
      (forInKeys (.obj es .jsNull)) .enil = es := by
    rw [forInKeys_plain]
    have hvalsmem : ∀ k, k ∈ ekeys es →
        camelize k = k ∧ isPlainObject (getV (.obj es .jsNull) k) = true := by
      intro k hk
      have hs := (mem_ekeys_iff_isSome es k).mp hk
      cases hl : elookup es k with
      | none => rw [hl] at hs; cases hs
      | some v =>
          have := hnorm k v hl
          rw [getV_obj_some es .jsNull k v hl]
          exact this
    rw [normalizePropsObjGo_rebuild (.obj es .jsNull) (ekeys es) .enil hvalsmem]
    have hvals : ∀ k, k ∈ ekeys es →
        some (getV (.obj es .jsNull) k) = elookup es k := by
      intro k hk
      have hs := (mem_ekeys_iff_isSome es k).mp hk
      cases hl : elookup es k with
      | none => rw [hl] at hs; cases hs
      | some v => rw [getV_obj_some es .jsNull k v hl]
    rw [foldl_esetUpd_rebuild (.obj es .jsNull) es .enil
      (by intro k _; simp [ekeys]) hnd hvals]
    rfl
  simp only [normalizeProps, hP]
  rw [if_neg (by simp [truthy])]
  rw [hrebuild]
  congr 1
  exact esetUpd_of_lookup_eq oes "props" _ hprops

/-- C6: the property-declaration normalization is idempotent on an
already-normalized shape: when the props field is a null-prototype
mapping from camel-cased names to plain-object descriptors carrying a
type key, normalizeProps leaves the config (and in particular its props
field) unchanged, so running it twice equals running it once. -/
theorem normalizeProps_idempotent (oes : Entries) (oproto : JSVal) (es : Entries)
    (hprops : elookup oes "props" = some (.obj es .jsNull))
    (hnd : (ekeys es).Nodup)
    (hnorm : ∀ k v, elookup es k = some v →
      camelize k = k ∧ isPlainObject v = true ∧ hasOwnV v "type" = true) :
    getV (normalizeProps (.obj oes oproto)) "props" = getV (.obj oes oproto) "props" ∧
    normalizeProps (normalizeProps (.obj oes oproto))
      = normalizeProps (.obj oes oproto) := by
  have hfix := normalizeProps_fixed oes oproto es hprops hnd
    (fun k v h => ⟨(hnorm k v h).1, (hnorm k v h).2.1⟩)
  constructor
  · rw [hfix]
  · rw [hfix, hfix]

/-- C6 witness: the theorem applied to the already-normalized props
shape foo mapped to a type descriptor. -/
theorem normalizeProps_idempotent_witness :
    getV (normalizeProps (.obj (.econs "props"
        (.obj (.econs "foo" (.obj (.econs "type" .jsNull .enil) .jsNull) .enil) .jsNull)
        .enil) .jsNull)) "props"
      = getV (.obj (.econs "props"
          (.obj (.econs "foo" (.obj (.econs "type" .jsNull .enil) .jsNull) .enil) .jsNull)
          .enil) .jsNull) "props" ∧
    normalizeProps (normalizeProps (.obj (.econs "props"
        (.obj (.econs "foo" (.obj (.econs "type" .jsNull .enil) .jsNull) .enil) .jsNull)
        .enil) .jsNull))
      = normalizeProps (.obj (.econs "props"
          (.obj (.econs "foo" (.obj (.econs "type" .jsNull .enil) .jsNull) .enil) .jsNull)
          .enil) .jsNull) :=
  normalizeProps_idempotent
    (.econs "props"
      (.obj (.econs "foo" (.obj (.econs "type" .jsNull .enil) .jsNull) .enil) .jsNull)
      .enil)
    .jsNull
    (.econs "foo" (.obj (.econs "type" .jsNull .enil) .jsNull) .enil)
    rfl (by decide)
    (fun k v h => by
      by_cases hk : k = "foo"
      · subst hk
        simp [elookup] at h
        subst h
        exact ⟨rfl, rfl, rfl⟩
      · simp [elookup, hk] at h)

theorem normalizeInject_hasOwn (oes : Entries) (op : JSVal) :
    hasOwnV (normalizeInject (.obj oes op)) "inject" = true := by
  simp [normalizeInject, hasOwnV, elookup_esetUpd_self]

theorem normalizeInject_shape (oes : Entries) (op : JSVal) :
    ∃ es2, normalizeInject (.obj oes op) = .obj es2 op :=
  ⟨_, rfl⟩

theorem normalizeProps_shape (oes : Entries) (op : JSVal) :
    ∃ es2, normalizeProps (.obj oes op) = .obj es2 op := by
  simp only [normalizeProps]
  by_cases h : (!truthy (getV (.obj oes op) "props")) = true
  · rw [if_pos h]; exact ⟨oes, rfl⟩
  · rw [if_neg h]; exact ⟨_, rfl⟩

theorem normalizeDirectives_inject (oes : Entries) (op : JSVal)
    (h : (elookup oes "inject").isSome = true) :
    hasOwnV (normalizeDirectives (.obj oes op)) "inject" = true := by
  simp only [normalizeDirectives]
  by_cases hd : truthy (getV (.obj oes op) "directives") = true
  · rw [if_pos hd]
    cases hg : getV (.obj oes op) "directives" with
    | obj des dp =>
        simp only [hasOwnV]
        rw [elookup_esetUpd_ne oes "directives" "inject" _ (by decide)]
        exact h
    | undefV => simp [hasOwnV, h]
    | jsNull => simp [hasOwnV, h]
    | num n => simp [hasOwnV, h]
    | str s => simp [hasOwnV, h]
    | boolV b => simp [hasOwnV, h]
    | fn f => simp [hasOwnV, h]
    | arr elems => simp [hasOwnV, h]
  · rw [if_neg hd]
    simp [hasOwnV, h]

theorem normalized_child_inject (ces : Entries) (cp : JSVal) :
    hasOwnV (normalizeDirectives (normalizeInject (normalizeProps (.obj ces cp))))
      "inject" = true := by
  obtain ⟨es2, h2⟩ := normalizeProps_shape ces cp
  rw [h2]
  obtain ⟨es3, h3⟩ := normalizeInject_shape es2 cp
  have hio := normalizeInject_hasOwn es2 cp
  rw [h3] at hio
  rw [h3]
  exact normalizeDirectives_inject es3 cp hio

theorem inject_mem_mergeKeyList (parent child : JSVal)
    (h : hasOwnV child "inject" = true) :
    "inject" ∈ mergeKeyList parent child := by
  unfold mergeKeyList
  by_cases hp : hasOwnV parent "inject" = true
  · apply List.mem_append_left
    cases parent with
    | obj pes pp =>
        simp only [hasOwnV] at hp
        have := (mem_ekeys_iff_isSome pes "inject").mpr hp
        simp only [forInKeys]
        exact List.mem_append_left _ this
    | undefV => cases hp
    | jsNull => cases hp
    | num n => cases hp
    | str s => cases hp
    | boolV b => cases hp
    | fn f => cases hp
    | arr elems => cases hp
  · apply List.mem_append_right
    rw [List.mem_filter]
    constructor
    · cases child with
      | obj ces cp =>
          simp only [hasOwnV] at h
          have := (mem_ekeys_iff_isSome ces "inject").mpr h
          simp only [forInKeys]
          exact List.mem_append_left _ this
      | undefV => cases h
      | jsNull => cases h
      | num n => cases h
      | str s => cases h
      | boolV b => cases h
      | fn f => cases h
      | arr elems => cases h
    · simp [hp]

theorem mergeFields_inject (parent child : JSVal) (vm : Bool)
    (res : JSVal) (ev : List String)
    (hc : hasOwnV child "inject" = true)
    (h : mergeFields parent child vm = .ok (res, ev)) :
    hasOwnV res "inject" = true := by
  unfold mergeFields at h
  cases hrun : runFields parent child vm (mergeKeyList parent child) .enil [] with
  | error e => rw [hrun] at h; cases h
  | ok esev =>
      obtain ⟨es, ev'⟩ := esev
      rw [hrun] at h
      simp only [Except.ok.injEq, Prod.mk.injEq] at h
      rw [← h.1]
      simp only [hasOwnV]
      exact (runFields_mem parent child vm (mergeKeyList parent child) .enil [] es ev' hrun).2
        "inject" (inject_mem_mergeKeyList parent child hc)

theorem mergeOptionsCore_inject
    (recm : JSVal → JSVal → Bool → Except String (JSVal × List String))
    (parent child1 : JSVal) (vm : Bool) (res : JSVal) (ev : List String)
    (h : mergeOptionsCore recm parent child1 vm = .ok (res, ev)) :
    hasOwnV res "inject" = true := by
  cases child1 with
  | obj ces cproto =>
      simp only [mergeOptionsCore] at h
      cases h1 : expandStepE recm parent
          (getV (normalizeDirectives (normalizeInject (normalizeProps (.obj ces cproto))))
            "extends") vm with
      | error e => rw [h1] at h; simp [Except.bind] at h
      | ok pe1 =>
          rw [h1] at h
          simp only [Except.bind] at h
          cases h2 : mixinStepE recm pe1.1
              (getV (normalizeDirectives (normalizeInject (normalizeProps (.obj ces cproto))))
                "mixins") vm with
          | error e => rw [h2] at h; simp [Except.bind] at h
          | ok pe2 =>
              rw [h2] at h
              simp only [Except.bind] at h
              cases h3 : mergeFields pe2.1
                  (normalizeDirectives (normalizeInject (normalizeProps (.obj ces cproto)))) vm with
              | error e => rw [h3] at h; simp [Except.map] at h
              | ok re3 =>
                  rw [h3] at h
                  simp only [Except.map, Except.ok.injEq, Prod.mk.injEq] at h
                  rw [← h.1]
                  exact mergeFields_inject pe2.1 _ vm re3.1 re3.2
                    (normalized_child_inject ces cproto)
                    (by rw [← h3])
  | undefV => simp [mergeOptionsCore] at h
  | jsNull => simp [mergeOptionsCore] at h
  | num n => simp [mergeOptionsCore] at h
  | str st => simp [mergeOptionsCore] at h
  | boolV b => simp [mergeOptionsCore] at h
  | fn f => simp [mergeOptionsCore] at h
  | arr elems => simp [mergeOptionsCore] at h

/-- C10: the dependency-injection normalization unconditionally replaces
the child's inject field with a freshly built mapping — an empty one
when the child declares no inject at all — and consequently every config
a successful mergeOptions call returns own-contains an inject entry,
even when neither parent nor child declared any injection. -/
theorem mergeOptions_inject_always_present :
    (∀ (oes : Entries) (op : JSVal), getV (.obj oes op) "inject" = .undefV →
      normalizeInject (.obj oes op)
        = .obj (esetUpd oes "inject" (.obj .enil .jsNull)) op) ∧
    (∀ (n : Nat) (parent child : JSVal) (vm : Bool) (res : JSVal) (ev : List String),
      mergeOptionsE n parent child vm = .ok (res, ev) →
      hasOwnV res "inject" = true) := by
  constructor
  · intro oes op h
    simp [normalizeInject, h]
  · intro n parent child vm res ev h
    cases n with
    | zero => cases h
    | succ n =>
        exact mergeOptionsCore_inject (mergeOptionsE n) parent (unwrapCtor child) vm res ev h

/-- C10 witness: a merge of two empty configs still owns an inject
entry. -/
theorem mergeOptions_inject_always_present_witness :
    hasOwnV (.obj (.econs "inject" (.obj .enil .jsNull) .enil) .jsNull) "inject" = true :=
  (mergeOptions_inject_always_present).2 1 (.obj .enil .jsNull) (.obj .enil .jsNull) false
    (.obj (.econs "inject" (.obj .enil .jsNull) .enil) .jsNull) [] rfl
